import Mathlib

/-!
SideKick-EduTech, `c.cpp`: a shallow embedding and its verified properties.

The program reads lines from standard input up to the first empty line and
then, for each collected line, prints its uppercase form, its vowels and their
count, a space/tab tally, a running counter and a count of special characters.

Modelling conventions:

* A C++ `std::string` is a sequence of bytes.  It is embedded as a Lean
  `String`, every byte being the `Char` of the same code; the loops of the
  source run over `String.data`.
* `char` compared with an integer literal is promoted to `int`; `ord` gives
  that value for the usual signed 8-bit `char`.
* The `int` counters are embedded as `Nat`: they start at `0` or `1`, are only
  incremented, and are bounded by the length of a line (or of the buffer), so
  they stay below `2^31` for every line shorter than two gigabytes.
* Standard output is the list of the records written, each one terminated by
  `endl` in the source.
-/

namespace SideKick

/-! ## Characters -/

/-- Value of a `char` after integral promotion, for the usual signed 8-bit
`char`: a byte with the top bit set is its low seven bits minus 128, so the
bytes 128..255 are the values -128..-1 (an unsigned `char` would make them
exceed 122 instead, which the one user of `ord`, `splChar`, treats alike). -/
def ord (a : Char) : Int :=
  if a.toNat < 128 then (a.toNat : Int) else (a.toNat % 128 : Int) - 128

/-- The `toupper` of `<cctype>` in the default "C" locale, which is the locale
in force since the program never calls `setlocale`: the letters `a`..`z`
(codes 97..122) are moved down by 32, every other value is returned as is. -/
def toupper (c : Char) : Char :=
  if 97 ≤ c.toNat ∧ c.toNat ≤ 122 then Char.ofNat (c.toNat - 32) else c

/-- Text written by `cout << n` for a non-negative `int`. -/
def showInt (n : Nat) : String := toString n

/-! ## `whiteSpace` -/

/-- Local variables of `whiteSpace` that are live across loop iterations
(`newlines` is declared in the source but never read or written). -/
structure WsState where
  spaces : Nat
  tabs : Nat
  conse : Nat
  deriving DecidableEq, Repr

/-- One iteration of the `for (char a : s)` loop of `whiteSpace`. -/
def whiteSpaceStep (st : WsState) (a : Char) : WsState :=
  if a = ' ' then
    let conse := st.conse + 1
    if conse = 4 then
      { spaces := st.spaces, tabs := st.tabs + 1, conse := 0 }
    else
      { spaces := st.spaces + 1, tabs := st.tabs, conse := conse }
  else
    { spaces := st.spaces,
      tabs := if a = '\t' then st.tabs + 1 else st.tabs,
      conse := 0 }

/-- State of `whiteSpace` when its loop exits. -/
def whiteSpaceLoop (s : String) : WsState :=
  s.data.foldl whiteSpaceStep { spaces := 0, tabs := 0, conse := 0 }

/-- Value of `spaces` that `whiteSpace` prints: the loop's tally followed by
the statement `spaces += conse`. -/
def whiteSpaceSpaces (s : String) : Nat :=
  (whiteSpaceLoop s).spaces + (whiteSpaceLoop s).conse

/-- Value of `tabs` that `whiteSpace` prints. -/
def whiteSpaceTabs (s : String) : Nat :=
  (whiteSpaceLoop s).tabs

/-- Records written by `whiteSpace(s)`. -/
def whiteSpace (s : String) : List String :=
  ["Spaces: " ++ showInt (whiteSpaceSpaces s), "Tabs: " ++ showInt (whiteSpaceTabs s)]

/-! ## `toCaps` -/

/-- Result of `toCaps(s)`: a copy of `s` in which the loop
`for (char& c : result) c = toupper(c);` has overwritten every position. -/
def toCaps (s : String) : String :=
  ⟨s.data.map toupper⟩

/-! ## `vowels` -/

/-- Condition of the `if` in `vowels`. -/
def isVowel (a : Char) : Bool :=
  a == 'a' || a == 'e' || a == 'i' || a == 'o' || a == 'u' ||
  a == 'A' || a == 'E' || a == 'I' || a == 'O' || a == 'U'

/-- What `vowels` has written so far, and its local `vowelCount`. -/
structure VowelState where
  out : List String
  vowelCount : Nat
  deriving DecidableEq, Repr

/-- One iteration of the loop of `vowels`: a vowel is written on a record of
its own (`cout << a << endl`) and counted. -/
def vowelsStep (st : VowelState) (a : Char) : VowelState :=
  if isVowel a then
    { out := st.out ++ [String.singleton a], vowelCount := st.vowelCount + 1 }
  else
    st

/-- State of `vowels` when its loop exits. -/
def vowelsLoop (s : String) : VowelState :=
  s.data.foldl vowelsStep { out := [], vowelCount := 0 }

/-- Records written by `vowels(s)`. -/
def vowels (s : String) : List String :=
  (vowelsLoop s).out ++ ["cnt: " ++ showInt (vowelsLoop s).vowelCount]

/-! ## `splChar` -/

/-- Condition of the `if` in `splChar`:
`((a < 65) || (a > 122) || (a > 90 && a < 97)) && a != ' '`. -/
def isSpl (a : Char) : Bool :=
  (decide (ord a < 65) || decide (ord a > 122) ||
    (decide (ord a > 90) && decide (ord a < 97))) && a != ' '

/-- One iteration of the loop of `splChar`, on its local `count`. -/
def splCharStep (count : Nat) (a : Char) : Nat :=
  if isSpl a then count + 1 else count

/-- Value of `count` when the loop of `splChar` exits. -/
def splCharCount (s : String) : Nat :=
  s.data.foldl splCharStep 0

/-- Records written by `splChar(s)`. -/
def splChar (s : String) : List String :=
  ["Spl char: " ++ showInt (splCharCount s)]

/-! ## Standard input and `getline` -/

/-- The part of `cin` the program depends on: the bytes not yet extracted and
the two state bits that `getline` reads and writes. -/
structure IStream where
  rest : List Char
  eofbit : Bool
  failbit : Bool
  deriving DecidableEq, Repr

/-- The stream `cin` at program start, for a standard input holding `input`. -/
def cinOf (input : String) : IStream :=
  { rest := input.data, eofbit := false, failbit := false }

/-- Extraction step of `getline`: the characters before the first `'\n'`, the
characters after it, and whether the delimiter was met (it is extracted and
dropped) or the input ran out first. -/
def extractLine : List Char → List Char × List Char × Bool
  | [] => ([], [], false)
  | c :: cs =>
    if c = '\n' then ([], cs, true)
    else
      let r := extractLine cs
      (c :: r.1, r.2.1, r.2.2)

/-- The call `getline(cin, str)`, an unformatted input function: it first
builds a sentry, which fails and sets `failbit` when the stream is not
`good()`, and then `str` is left as it was; otherwise `str` is erased and
filled up to the delimiter.  Running out of input sets `eofbit`, and also
`failbit` when no character was extracted. -/
def getline (cin : IStream) (str : String) : IStream × String :=
  if cin.eofbit || cin.failbit then
    ({ cin with failbit := true }, str)
  else
    let r := extractLine cin.rest
    if r.2.2 then
      ({ rest := r.2.1, eofbit := false, failbit := false }, ⟨r.1⟩)
    else
      ({ rest := [], eofbit := true, failbit := r.1.isEmpty }, ⟨r.1⟩)

/-! ## `main` -/

/-- The loop `while (true) { getline(cin, str); if (str.empty()) break;
sstr.push_back(str); }` run for at most `fuel` iterations: `some sstr` is the
buffer at the `break`, `none` means the loop is still running. -/
def collectLoop : Nat → IStream → String → List String → Option (List String)
  | 0, _, _, _ => none
  | fuel + 1, cin, str, sstr =>
    let r := getline cin str
    if r.2 = "" then some sstr
    else collectLoop fuel r.1 r.2 (sstr ++ [r.2])

/-- The collection loop of `main` from the initial state (`str` and `sstr`
empty) on the standard input `input`. -/
def collect (fuel : Nat) (input : String) : Option (List String) :=
  collectLoop fuel (cinOf input) "" []

/-- Variables of the second loop of `main`: the counter `newl` and what has
been written to standard output. -/
structure DriverState where
  newl : Nat
  out : List String
  deriving DecidableEq, Repr

/-- One iteration of `for (const auto& i : sstr)` in `main`. -/
def driverStep (st : DriverState) (i : String) : DriverState :=
  let res := toCaps i
  let newl := st.newl + 1
  { newl := newl,
    out := st.out ++ [res] ++ vowels i ++ whiteSpace i
      ++ ["Newlines: " ++ showInt newl] ++ splChar i }

/-- The second loop of `main` over the buffer `sstr`, entered with `newl = 1`
and with the output written before it. -/
def driverLoop (out : List String) (sstr : List String) : DriverState :=
  sstr.foldl driverStep { newl := 1, out := out }

/-- Standard output of `main` once the collection loop has left `sstr` in the
buffer: `"begin"` is written before the input is read. -/
def mainOutput (sstr : List String) : List String :=
  (driverLoop ["begin"] sstr).out

/-- Standard output of a complete run of `main` on the standard input `input`,
`none` when the collection loop has not finished within `fuel` iterations. -/
def main (fuel : Nat) (input : String) : Option (List String) :=
  (collect fuel input).map mainOutput

/-- Characters of the newline-terminated lines `lines`, in order. -/
def unlines : List String → List Char
  | [] => []
  | l :: ls => l.data ++ '\n' :: unlines ls

/-- Standard input made of the newline-terminated lines `lines` followed by
the characters of `last`, which no newline follows (`last = ""` when the input
ends right after a newline, or is empty). -/
def stdinOf (lines : List String) (last : String) : String :=
  ⟨unlines lines ++ last.data⟩

/-! ## Vocabulary of the specification -/

/-- The vowels of the specification, `[aeiouAEIOU]`. -/
def vowelSet : List Char :=
  ['a', 'e', 'i', 'o', 'u', 'A', 'E', 'I', 'O', 'U']

/-- ASCII letters: `A`..`Z` (codes 65..90) and `a`..`z` (codes 97..122). -/
def isLetter (c : Char) : Bool :=
  (decide (65 ≤ c.toNat) && decide (c.toNat ≤ 90)) ||
    (decide (97 ≤ c.toNat) && decide (c.toNat ≤ 122))

/-- Block of records the specification gives for the `k`-th buffered line `L`,
`k` counted from 1: the uppercased line, its vowels, `cnt`, `Spaces`, `Tabs`,
`Newlines: k+1` and `Spl char`. -/
def specBlock (k : Nat) (L : String) : List String :=
  [toCaps L]
    ++ (L.data.filter (fun c => decide (c ∈ vowelSet))).map String.singleton
    ++ ["cnt: " ++ showInt (L.data.filter (fun c => decide (c ∈ vowelSet))).length,
        "Spaces: " ++ showInt (whiteSpaceSpaces L),
        "Tabs: " ++ showInt (whiteSpaceTabs L),
        "Newlines: " ++ showInt (k + 1),
        "Spl char: " ++ showInt (L.data.countP (fun c => !isLetter c && c != ' '))]

/-- Whole output the specification gives for the buffer `sstr`: `begin`, then
the block of every line in insertion order. -/
def specOutput (sstr : List String) : List String :=
  "begin" :: ((sstr.enumFrom 1).map (fun p => specBlock p.1 p.2)).flatten

/-- Records written while the line at position `i` (counted from 0) of the
buffer `sstr` is processed: what the output after `i + 1` lines adds to the
output after `i` lines. -/
def blockAt (sstr : List String) (i : Nat) : List String :=
  (mainOutput (sstr.take (i + 1))).drop (mainOutput (sstr.take i)).length

/-- Lengths of the maximal runs of consecutive space characters of `l`, from
left to right, when `cur` spaces stand right before `l` and count in its first
run. -/
def spaceRunsFrom : Nat → List Char → List Nat
  | cur, [] => if cur = 0 then [] else [cur]
  | cur, c :: cs =>
    if c = ' ' then spaceRunsFrom (cur + 1) cs
    else if cur = 0 then spaceRunsFrom 0 cs
    else cur :: spaceRunsFrom 0 cs

/-- Lengths of the maximal runs of consecutive space characters of the line
`L`, from left to right. -/
def spaceRuns (L : String) : List Nat :=
  spaceRunsFrom 0 L.data

/-- Number of 4-space groups of `L`: the sum over its maximal space runs of
`floor (run length / 4)`. -/
def fourGroups (L : String) : Nat :=
  ((spaceRuns L).map (fun r => r / 4)).sum

/-- Length of the run of spaces that ends the line `L`, `0` when `L` does not
end in a space. -/
def trailingSpaces (L : String) : Nat :=
  (L.data.reverse.takeWhile (fun c => c == ' ')).length

/-- Plain spaces under the rule "every 4 spaces of a run are 1 tab, the rest
are spaces": the sum over the maximal space runs of `run length mod 4`. -/
def naiveSpaces (L : String) : Nat :=
  ((spaceRuns L).map (fun r => r % 4)).sum


/-! ## Characters: auxiliary facts -/

theorem toNat_ofNat_of_lt (n : Nat) (h : n < 55296) : (Char.ofNat n).toNat = n := by
  have hv : n.isValidChar := Or.inl h
  simp [Char.ofNat, hv, Char.ofNatAux, Char.toNat, UInt32.toNat]

theorem toupper_toNat_of_lower (c : Char) (h : 97 ≤ c.toNat ∧ c.toNat ≤ 122) :
    (toupper c).toNat = c.toNat - 32 := by
  unfold toupper
  rw [if_pos h]
  exact toNat_ofNat_of_lt _ (by omega)

theorem toupper_of_not_lower (c : Char) (h : ¬ (97 ≤ c.toNat ∧ c.toNat ≤ 122)) :
    toupper c = c := by
  unfold toupper
  rw [if_neg h]

theorem toupper_idem (c : Char) : toupper (toupper c) = toupper c := by
  by_cases h : 97 ≤ c.toNat ∧ c.toNat ≤ 122
  · apply toupper_of_not_lower
    rw [toupper_toNat_of_lower c h]
    omega
  · rw [toupper_of_not_lower c h, toupper_of_not_lower c h]

theorem isVowel_iff_mem (a : Char) : isVowel a = true ↔ a ∈ vowelSet := by
  simp [isVowel, vowelSet, or_assoc]

theorem isSpl_eq (a : Char) : isSpl a = (!isLetter a && a != ' ') := by
  have h32 : a = ' ' → a.toNat = 32 := fun h => by rw [h]; rfl
  by_cases hs : a = ' '
  · subst hs; decide
  · unfold isSpl isLetter ord
    rw [Bool.eq_iff_iff]
    by_cases h : a.toNat < 128 <;> simp [h, hs] <;> omega

/-! ## The scans: loop invariants -/

theorem vowelsLoop_foldl (l : List Char) (st : VowelState) :
    l.foldl vowelsStep st =
      { out := st.out ++ (l.filter isVowel).map String.singleton,
        vowelCount := st.vowelCount + (l.filter isVowel).length } := by
  induction l generalizing st with
  | nil => simp
  | cons a l ih =>
    rw [List.foldl_cons, ih]
    by_cases h : isVowel a = true
    · simp [vowelsStep, h, List.filter_cons, Nat.add_assoc, Nat.add_comm 1]
    · simp [vowelsStep, h, List.filter_cons]

theorem filter_isVowel_eq (l : List Char) :
    l.filter isVowel = l.filter (fun c => decide (c ∈ vowelSet)) := by
  apply List.filter_congr
  intro a _
  rw [Bool.eq_iff_iff, isVowel_iff_mem]
  simp

theorem splCharCount_foldl (l : List Char) (count : Nat) :
    l.foldl splCharStep count = count + l.countP isSpl := by
  induction l generalizing count with
  | nil => simp
  | cons a l ih =>
    rw [List.foldl_cons, ih]
    by_cases h : isSpl a = true
    · simp [splCharStep, h, List.countP_cons, Nat.add_assoc, Nat.add_comm 1]
    · simp [splCharStep, h, List.countP_cons]

theorem vowels_eq_filter (L : String) :
    vowels L =
      (L.data.filter (fun c => decide (c ∈ vowelSet))).map String.singleton
        ++ ["cnt: " ++ showInt (L.data.filter (fun c => decide (c ∈ vowelSet))).length] := by
  unfold vowels vowelsLoop
  rw [vowelsLoop_foldl, filter_isVowel_eq]
  simp

theorem splCharCount_eq_countP (L : String) :
    splCharCount L = L.data.countP (fun c => !isLetter c && c != ' ') := by
  unfold splCharCount
  rw [splCharCount_foldl, Nat.zero_add]
  exact List.countP_congr (fun a _ => by rw [isSpl_eq])

/-! ## Claims on the scans -/

/-- C1: on the line of exactly four space characters `whiteSpace` writes
`Spaces: 3` and `Tabs: 1`: the first three spaces are each added to `spaces`
before the fourth turns the run into a tab. -/
theorem whiteSpace_four_spaces :
    whiteSpace "    " = ["Spaces: 3", "Tabs: 1"] := by
  decide

/-- C2: on the lines of one, two and three space characters `whiteSpace`
writes `Spaces: 2`, `Spaces: 4` and `Spaces: 6` (each with `Tabs: 0`): every
space is added to `spaces` inside the loop and once more by `spaces += conse`
after it. -/
theorem whiteSpace_short_space_runs :
    whiteSpace " " = ["Spaces: 2", "Tabs: 0"] ∧
    whiteSpace "  " = ["Spaces: 4", "Tabs: 0"] ∧
    whiteSpace "   " = ["Spaces: 6", "Tabs: 0"] := by
  decide

/-- C3: `toCaps L` has the length of `L`, and at every index a lowercase
letter `a`..`z` of `L` has become the letter 32 codes below it (its uppercase
form) while every other character is the one of `L`. -/
theorem toCaps_spec (L : String) :
    (toCaps L).length = L.length ∧
    ∀ (i : Nat) (c : Char), L.data[i]? = some c →
      ∃ d, (toCaps L).data[i]? = some d ∧
        (if 97 ≤ c.toNat ∧ c.toNat ≤ 122 then
          d.toNat = c.toNat - 32 ∧ 65 ≤ d.toNat ∧ d.toNat ≤ 90
        else d = c) := by
  refine ⟨by show (List.map toupper L.data).length = L.data.length; exact List.length_map _ _, ?_⟩
  intro i c hc
  refine ⟨toupper c, by simp [toCaps, List.getElem?_map, hc], ?_⟩
  by_cases h : 97 ≤ c.toNat ∧ c.toNat ≤ 122
  · rw [if_pos h, toupper_toNat_of_lower c h]
    omega
  · rw [if_neg h]
    exact toupper_of_not_lower c h

/-- Instance of C3 on the line `aZ9`: same length, `a` becomes `A`, and `Z`
stays. -/
theorem toCaps_spec_witness :
    (toCaps "aZ9").length = "aZ9".length ∧
    (∃ d, (toCaps "aZ9").data[0]? = some d ∧ d.toNat = 65) ∧
    (∃ d, (toCaps "aZ9").data[1]? = some d ∧ d = 'Z') := by
  refine ⟨(toCaps_spec "aZ9").1, ?_, ?_⟩
  · obtain ⟨d, hd, h⟩ := (toCaps_spec "aZ9").2 0 'a' (by decide)
    exact ⟨d, hd, (by simpa using h.1)⟩
  · obtain ⟨d, hd, h⟩ := (toCaps_spec "aZ9").2 1 'Z' (by decide)
    exact ⟨d, hd, (by simpa using h)⟩

/-- C4: `toCaps` is idempotent, `toCaps (toCaps L) = toCaps L` for every
line `L`. -/
theorem toCaps_idempotent (L : String) : toCaps (toCaps L) = toCaps L := by
  unfold toCaps
  congr 1
  rw [List.map_map]
  exact List.map_congr_left (fun c _ => toupper_idem c)

/-- C5: `vowels L` writes the characters of `L` that are in `[aeiouAEIOU]`,
in their order and case, one per record, and then the one record `cnt: n` with
`n` their number; `test` gives `e`, `cnt: 1`, and a line without a vowel gives
`cnt: 0` alone. -/
theorem vowels_spec (L : String) :
    vowels L =
      (L.data.filter (fun c => decide (c ∈ vowelSet))).map String.singleton
        ++ ["cnt: " ++ showInt (L.data.filter (fun c => decide (c ∈ vowelSet))).length] ∧
    vowels "test" = ["e", "cnt: 1"] ∧
    ((∀ c ∈ L.data, c ∉ vowelSet) → vowels L = ["cnt: 0"]) := by
  have key := vowels_eq_filter L
  refine ⟨key, by decide, ?_⟩
  intro h
  have hnil : L.data.filter (fun c => decide (c ∈ vowelSet)) = [] := by
    rw [List.filter_eq_nil_iff]
    intro a ha
    simpa using h a ha
  rw [key, hnil]
  decide

/-- Instance of C5 on `Queue`: the vowels `u`, `e`, `u`, `e` and `cnt: 4`;
and on `xyz`, which has no vowel. -/
theorem vowels_spec_witness :
    vowels "Queue" = ["u", "e", "u", "e", "cnt: 4"] ∧ vowels "xyz" = ["cnt: 0"] := by
  refine ⟨?_, (vowels_spec "xyz").2.2 (by decide)⟩
  rw [(vowels_spec "Queue").1]
  decide

/-- C6: the number `splChar L` writes after `Spl char: ` is the number of
characters of `L` that are neither an ASCII letter nor the space; `ab12`
gives `Spl char: 2`, and a digit, the punctuation `[`, `_` and `~`, a tab and
a control character are all counted. -/
theorem splChar_spec (L : String) :
    splCharCount L = L.data.countP (fun c => !isLetter c && c != ' ') ∧
    splChar L =
      ["Spl char: " ++ showInt (L.data.countP (fun c => !isLetter c && c != ' '))] ∧
    splChar "ab12" = ["Spl char: 2"] ∧
    splChar "7[_~\t\x01 Az" = ["Spl char: 6"] := by
  have key := splCharCount_eq_countP L
  refine ⟨key, ?_, by decide, by decide⟩
  unfold splChar
  rw [key]

/-! ## The collection loop: auxiliary facts -/

theorem extractLine_delim (l rest : List Char) (h : '\n' ∉ l) :
    extractLine (l ++ '\n' :: rest) = (l, rest, true) := by
  induction l with
  | nil => simp [extractLine]
  | cons c l ih =>
    have hc : c ≠ '\n' := fun e => h (by simp [e])
    have hl : '\n' ∉ l := fun e => h (by simp [e])
    simp [extractLine, hc, ih hl]

theorem extractLine_eof (l : List Char) (h : '\n' ∉ l) :
    extractLine l = (l, [], false) := by
  induction l with
  | nil => simp [extractLine]
  | cons c l ih =>
    have hc : c ≠ '\n' := fun e => h (by simp [e])
    have hl : '\n' ∉ l := fun e => h (by simp [e])
    simp [extractLine, hc, ih hl]

theorem getline_line (l : String) (rest : List Char) (str : String)
    (h : '\n' ∉ l.data) :
    getline { rest := l.data ++ '\n' :: rest, eofbit := false, failbit := false } str
      = ({ rest := rest, eofbit := false, failbit := false }, l) := by
  simp [getline, extractLine_delim l.data rest h]

theorem getline_last (l : String) (str : String) (h : '\n' ∉ l.data) :
    getline { rest := l.data, eofbit := false, failbit := false } str
      = ({ rest := [], eofbit := true, failbit := l.data.isEmpty }, l) := by
  simp [getline, extractLine_eof l.data h]

theorem getline_after_eof (rest : List Char) (fb : Bool) (str : String) :
    getline { rest := rest, eofbit := true, failbit := fb } str
      = ({ rest := rest, eofbit := true, failbit := true }, str) := by
  simp [getline]

/-- Once `eofbit` is set and `str` is not empty, the loop never breaks. -/
theorem collectLoop_after_eof (fuel : Nat) (rest : List Char) (fb : Bool)
    (str : String) (sstr : List String) (h : str ≠ "") :
    collectLoop fuel { rest := rest, eofbit := true, failbit := fb } str sstr = none := by
  induction fuel generalizing fb sstr with
  | zero => rfl
  | succ n ih =>
    unfold collectLoop
    simp only [getline_after_eof, if_neg h]
    exact ih _ _

/-- On an input with an empty line the loop breaks there, given enough fuel. -/
theorem collectLoop_empty_line (lines : List String) (tail : List Char)
    (hnl : ∀ l ∈ lines, '\n' ∉ l.data) (hempty : "" ∈ lines)
    (fuel : Nat) (hfuel : lines.length ≤ fuel) (str : String) (sstr : List String) :
    collectLoop fuel { rest := unlines lines ++ tail, eofbit := false, failbit := false }
        str sstr
      = some (sstr ++ lines.takeWhile (fun l => decide (l ≠ ""))) := by
  induction lines generalizing fuel str sstr with
  | nil => simp at hempty
  | cons l ls ih =>
    obtain ⟨n, rfl⟩ : ∃ n, fuel = n + 1 := ⟨fuel - 1, by simp at hfuel; omega⟩
    have hl : '\n' ∉ l.data := hnl l (by simp)
    unfold collectLoop
    simp only [unlines, List.append_assoc, List.cons_append, getline_line l _ str hl]
    by_cases he : l = ""
    · simp [he]
    · have hmem : "" ∈ ls := by
        rcases List.mem_cons.1 hempty with h | h
        · exact absurd h.symm he
        · exact h
      rw [if_neg he, ih (fun x hx => hnl x (by simp [hx])) hmem n
        (by simp at hfuel; omega)]
      simp [List.takeWhile_cons, he]

/-- On an input of non-empty lines that ends right after a newline the loop
breaks at end of input, given enough fuel. -/
theorem collectLoop_eof_after_newline (lines : List String)
    (hnl : ∀ l ∈ lines, '\n' ∉ l.data) (hne : "" ∉ lines)
    (fuel : Nat) (hfuel : lines.length < fuel) (str : String) (sstr : List String) :
    collectLoop fuel { rest := unlines lines, eofbit := false, failbit := false } str sstr
      = some (sstr ++ lines) := by
  induction lines generalizing fuel str sstr with
  | nil =>
    obtain ⟨n, rfl⟩ : ∃ n, fuel = n + 1 := ⟨fuel - 1, by simp at hfuel; omega⟩
    simp [collectLoop, unlines, getline, extractLine]
  | cons l ls ih =>
    obtain ⟨n, rfl⟩ : ∃ n, fuel = n + 1 := ⟨fuel - 1, by simp at hfuel; omega⟩
    have hl : '\n' ∉ l.data := hnl l (by simp)
    have he : l ≠ "" := fun e => hne (by simp [e])
    unfold collectLoop
    simp only [unlines, getline_line l _ str hl, if_neg he]
    rw [ih (fun x hx => hnl x (by simp [hx])) (fun h => hne (by simp [h])) n
      (by simp at hfuel; omega)]
    simp

/-- On an input of non-empty lines whose last line has no newline after it the
loop never breaks, whatever the fuel. -/
theorem collectLoop_unterminated (lines : List String) (last : String)
    (hnl : ∀ l ∈ lines, '\n' ∉ l.data) (hne : "" ∉ lines)
    (hlast : '\n' ∉ last.data) (hlast0 : last ≠ "")
    (fuel : Nat) (str : String) (sstr : List String) :
    collectLoop fuel
        { rest := unlines lines ++ last.data, eofbit := false, failbit := false } str sstr
      = none := by
  induction lines generalizing fuel str sstr with
  | nil =>
    cases fuel with
    | zero => rfl
    | succ n =>
      unfold collectLoop
      simp only [unlines, List.nil_append, getline_last last str hlast, if_neg hlast0]
      exact collectLoop_after_eof _ _ _ _ _ hlast0
  | cons l ls ih =>
    cases fuel with
    | zero => rfl
    | succ n =>
      have hl : '\n' ∉ l.data := hnl l (by simp)
      have he : l ≠ "" := fun e => hne (by simp [e])
      unfold collectLoop
      simp only [unlines, List.append_assoc, List.cons_append, getline_line l _ str hl,
        if_neg he]
      exact ih (fun x hx => hnl x (by simp [hx])) (fun h => hne (by simp [h])) n _ _

/-! ## The driver loop: auxiliary facts -/

theorem driverStep_out (st : DriverState) (i : String) :
    (driverStep st i).out = st.out ++ specBlock st.newl i := by
  simp [driverStep, specBlock, vowels_eq_filter, whiteSpace, splChar,
    splCharCount_eq_countP]

theorem driverStep_newl (st : DriverState) (i : String) :
    (driverStep st i).newl = st.newl + 1 := rfl

theorem driver_foldl (sstr : List String) (st : DriverState) :
    sstr.foldl driverStep st =
      { newl := st.newl + sstr.length,
        out := st.out ++
          ((sstr.enumFrom st.newl).map (fun p => specBlock p.1 p.2)).flatten } := by
  induction sstr generalizing st with
  | nil => simp
  | cons i is ih =>
    rw [List.foldl_cons, ih, driverStep_out, driverStep_newl]
    simp [List.enumFrom_cons, Nat.add_assoc, Nat.add_comm 1]

theorem driver_foldl_append (pre post : List String) (st : DriverState) :
    (pre ++ post).foldl driverStep st = post.foldl driverStep (pre.foldl driverStep st) :=
  List.foldl_append _ _ _ _

theorem driver_foldl_out_extends (post : List String) (st : DriverState) :
    ∃ tail, (post.foldl driverStep st).out = st.out ++ tail :=
  ⟨_, by rw [driver_foldl]⟩

theorem takeWhile_split (lines : List String) (h : "" ∈ lines) :
    ∃ post, lines = lines.takeWhile (fun l => decide (l ≠ "")) ++ "" :: post := by
  induction lines with
  | nil => simp at h
  | cons l ls ih =>
    by_cases he : l = ""
    · exact ⟨ls, by simp [he]⟩
    · have hmem : "" ∈ ls := by
        rcases List.mem_cons.1 h with h | h
        · exact absurd h.symm he
        · exact h
      obtain ⟨post, hp⟩ := ih hmem
      refine ⟨post, ?_⟩
      rw [List.takeWhile_cons, if_pos (by simpa using he), List.cons_append, ← hp]

theorem not_mem_takeWhile (lines : List String) :
    "" ∉ lines.takeWhile (fun l => decide (l ≠ "")) := by
  intro h
  have := List.mem_takeWhile_imp h
  simp at this

/-! ## Claims on `main` -/

/-- C7: for every buffer the whole output of the program is `begin` followed,
for each line in insertion order, by its block: uppercased line, vowels, `cnt`,
`Spaces`, `Tabs`, `Newlines: k+1`, `Spl char`; and the standard input
`Hi!\n\n` gives begin, HI!, i, cnt: 1, Spaces: 0, Tabs: 0, Newlines: 2,
Spl char: 1 as soon as the fuel covers the two reads. -/
theorem mainOutput_spec (sstr : List String) (fuel : Nat) :
    mainOutput sstr = specOutput sstr ∧
    main (fuel + 2) "Hi!\n\n" =
      some ["begin", "HI!", "i", "cnt: 1", "Spaces: 0", "Tabs: 0", "Newlines: 2",
        "Spl char: 1"] := by
  constructor
  · unfold mainOutput driverLoop specOutput
    rw [driver_foldl]
    rfl
  · have h := collectLoop_empty_line ["Hi!", ""] [] (by decide) (by decide) (fuel + 2)
      (by simp) "" []
    unfold main collect
    have e : cinOf "Hi!\n\n" =
        { rest := unlines ["Hi!", ""] ++ [], eofbit := false, failbit := false } := by
      decide
    rw [e, h]
    decide

/-- C8: when the sequence of input lines contains an empty line, the buffer
built by the collection loop is the part of the sequence before its first
empty line, in order: it holds no empty line, and the first empty line and all
that follows are left out (whatever follows the lines on standard input). -/
theorem collect_stops_at_first_empty_line (lines : List String) (last : String)
    (hnl : ∀ l ∈ lines, '\n' ∉ l.data) (hempty : "" ∈ lines)
    (fuel : Nat) (hfuel : lines.length ≤ fuel) :
    ∃ pre post, lines = pre ++ "" :: post ∧ "" ∉ pre ∧
      pre = lines.takeWhile (fun l => decide (l ≠ "")) ∧
      collect fuel (stdinOf lines last) = some pre := by
  obtain ⟨post, hp⟩ := takeWhile_split lines hempty
  refine ⟨_, post, hp, not_mem_takeWhile lines, rfl, ?_⟩
  have h := collectLoop_empty_line lines last.data hnl hempty fuel hfuel "" []
  simpa [collect, cinOf, stdinOf] using h

/-- Instance of C8: lines of one space and of one tab are buffered, the empty
line stops the collection and `x` after it is not read. -/
theorem collect_stops_at_first_empty_line_witness :
    collect 4 " \n\t\n\nx\n" = some [" ", "\t"] := by
  obtain ⟨pre, post, _, _, hpre, h⟩ :=
    collect_stops_at_first_empty_line [" ", "\t", "", "x"] "" (by decide) (by decide) 4
      (by decide)
  have e : stdinOf [" ", "\t", "", "x"] "" = " \n\t\n\nx\n" := by decide
  rw [e, hpre] at h
  rw [h]
  decide

/-- C9: on the standard input `a`, whose only line has no newline after it,
the collection loop never reaches its `break`, whatever the number of
iterations allowed; on `a\n` it stops at end of input with the buffer `[a]`,
as it does on `a\n\n`. -/
theorem collect_unterminated_last_line (fuel : Nat) :
    collect fuel "a" = none ∧
    collect (fuel + 2) "a\n" = some ["a"] ∧
    collect (fuel + 2) "a\n\n" = some ["a"] := by
  refine ⟨?_, ?_, ?_⟩
  · exact collectLoop_unterminated [] "a" (by decide) (by decide) (by decide) (by decide)
      fuel "" []
  · exact collectLoop_eof_after_newline ["a"] (by decide) (by decide) (fuel + 2)
      (by simp) "" []
  · exact collectLoop_empty_line ["a", ""] [] (by decide) (by decide) (fuel + 2)
      (by simp) "" []

/-- C10: when the line `L` is processed after the lines `pre`, the counter
holds `pre.length + 1` on entry and the block of `L` carries
`Newlines: pre.length + 2`: with `k = pre.length + 1` the `k`-th line prints
`k + 1`, so the first value is 2 and each value is one more than the one
before, whatever the lines are. -/
theorem newline_counter (pre : List String) (L : String) (post : List String) :
    (driverLoop ["begin"] pre).newl = pre.length + 1 ∧
    mainOutput (pre ++ [L]) =
      mainOutput pre ++ ([toCaps L] ++ vowels L ++ whiteSpace L
        ++ ["Newlines: " ++ showInt (pre.length + 2)] ++ splChar L) ∧
    (∃ tail, mainOutput (pre ++ L :: post) = mainOutput (pre ++ [L]) ++ tail) ∧
    mainOutput [L] =
      ["begin", toCaps L] ++ vowels L ++ whiteSpace L ++ ["Newlines: 2"] ++ splChar L := by
  have hn : (driverLoop ["begin"] pre).newl = pre.length + 1 := by
    unfold driverLoop
    rw [driver_foldl]
    exact Nat.add_comm _ _
  refine ⟨hn, ?_, ?_, ?_⟩
  · unfold mainOutput
    unfold driverLoop at hn ⊢
    rw [driver_foldl_append, List.foldl_cons, List.foldl_nil]
    simp only [driverStep, hn]
    simp [List.append_assoc]
  · have e : pre ++ L :: post = (pre ++ [L]) ++ post := by simp
    unfold mainOutput driverLoop
    rw [e, driver_foldl_append]
    exact driver_foldl_out_extends post _
  · simp [mainOutput, driverLoop, driverStep]
    decide

/-! ## Blocks of the output: auxiliary facts -/

theorem mainOutput_snoc (pre : List String) (L : String) :
    mainOutput (pre ++ [L]) =
      mainOutput pre ++ (([toCaps L] ++ vowels L ++ whiteSpace L)
        ++ ("Newlines: " ++ showInt (pre.length + 2)) :: splChar L) := by
  have hn : (pre.foldl driverStep { newl := 1, out := ["begin"] }).newl = pre.length + 1 := by
    rw [driver_foldl]
    exact Nat.add_comm _ _
  unfold mainOutput driverLoop
  rw [driver_foldl_append, List.foldl_cons, List.foldl_nil]
  simp only [driverStep, hn]
  simp [List.append_assoc]

theorem mainOutput_extends (pre post : List String) :
    ∃ rest, mainOutput (pre ++ post) = mainOutput pre ++ rest := by
  unfold mainOutput driverLoop
  rw [driver_foldl_append]
  exact driver_foldl_out_extends post _

theorem blockAt_eq (sstr : List String) (i : Nat) (L : String) (h : sstr[i]? = some L) :
    blockAt sstr i =
      ([toCaps L] ++ vowels L ++ whiteSpace L)
        ++ ("Newlines: " ++ showInt (i + 2)) :: splChar L := by
  have hi : i < sstr.length := by
    rcases Nat.lt_or_ge i sstr.length with hlt | hge
    · exact hlt
    · rw [List.getElem?_eq_none hge] at h
      exact absurd h (by simp)
  have hlen : (sstr.take i).length = i := by
    rw [List.length_take]
    omega
  unfold blockAt
  rw [List.take_succ, h, Option.toList_some, mainOutput_snoc, hlen,
    List.drop_left]

theorem getElem?_append_cons_of_ne {α : Type} (A B : List α) (x y : α) (n : Nat)
    (h : n ≠ A.length) : (A ++ x :: B)[n]? = (A ++ y :: B)[n]? := by
  rcases Nat.lt_or_gt_of_ne h with hlt | hgt
  · rw [List.getElem?_append_left hlt, List.getElem?_append_left hlt]
  · rw [List.getElem?_append_right (Nat.le_of_lt hgt),
      List.getElem?_append_right (Nat.le_of_lt hgt)]
    obtain ⟨m, hm⟩ : ∃ m, n - A.length = m + 1 := ⟨n - A.length - 1, by omega⟩
    rw [hm, List.getElem?_cons_succ, List.getElem?_cons_succ]

/-! ## Claims on the independence of the lines -/

/-- C11: when the line at position `i` of one buffer equals the line at
position `j` of another, the two blocks written for them are the uppercased
line, the vowel records, `cnt`, `Spaces`, `Tabs`, then `Newlines: i+2`
(respectively `j+2`), then `Spl char`, all but the `Newlines` record computed
from the line alone: the blocks have the same length and agree at every
position other than that of the `Newlines` record; each block is the part of
the whole output that follows the output for the lines before it. -/
theorem no_cross_line_leakage (buf1 buf2 : List String) (i j : Nat) (L : String)
    (h1 : buf1[i]? = some L) (h2 : buf2[j]? = some L) :
    blockAt buf1 i =
      ([toCaps L] ++ vowels L ++ whiteSpace L)
        ++ ("Newlines: " ++ showInt (i + 2)) :: splChar L ∧
    blockAt buf2 j =
      ([toCaps L] ++ vowels L ++ whiteSpace L)
        ++ ("Newlines: " ++ showInt (j + 2)) :: splChar L ∧
    (blockAt buf1 i).length = (blockAt buf2 j).length ∧
    (∀ n, n ≠ (vowels L).length + 3 → (blockAt buf1 i)[n]? = (blockAt buf2 j)[n]?) ∧
    (∃ rest, mainOutput buf1 = mainOutput (buf1.take i) ++ blockAt buf1 i ++ rest) ∧
    (∃ rest, mainOutput buf2 = mainOutput (buf2.take j) ++ blockAt buf2 j ++ rest) := by
  have e1 := blockAt_eq buf1 i L h1
  have e2 := blockAt_eq buf2 j L h2
  have whole : ∀ (buf : List String) (k : Nat), buf[k]? = some L →
      ∃ rest, mainOutput buf = mainOutput (buf.take k) ++ blockAt buf k ++ rest := by
    intro buf k hk
    obtain ⟨rest, hr⟩ := mainOutput_extends (buf.take (k + 1)) (buf.drop (k + 1))
    rw [List.take_append_drop] at hr
    refine ⟨rest, ?_⟩
    rw [hr, blockAt_eq buf k L hk, List.take_succ, hk, Option.toList_some, mainOutput_snoc]
    have hk' : k < buf.length := by
      rcases Nat.lt_or_ge k buf.length with hlt | hge
      · exact hlt
      · rw [List.getElem?_eq_none hge] at hk
        exact absurd hk (by simp)
    have hlen : (buf.take k).length = k := by
      rw [List.length_take]
      omega
    rw [hlen]
  refine ⟨e1, e2, ?_, ?_, whole buf1 i h1, whole buf2 j h2⟩
  · rw [e1, e2]
    simp
  · intro n hn
    rw [e1, e2]
    apply getElem?_append_cons_of_ne
    have hlen : ([toCaps L] ++ vowels L ++ whiteSpace L).length = (vowels L).length + 3 := by
      simp [whiteSpace]
    rw [hlen]
    exact hn

/-- Instance of C11: the line `Hi!` at position 1 of one buffer and at
position 0 of another gives blocks that differ in their `Newlines` record
alone, although the lines before it differ. -/
theorem no_cross_line_leakage_witness :
    blockAt ["a e  i", "Hi!"] 1 =
      ["HI!", "i", "cnt: 1", "Spaces: 0", "Tabs: 0", "Newlines: 3", "Spl char: 1"] ∧
    blockAt ["Hi!", "zz"] 0 =
      ["HI!", "i", "cnt: 1", "Spaces: 0", "Tabs: 0", "Newlines: 2", "Spl char: 1"] := by
  have h := no_cross_line_leakage ["a e  i", "Hi!"] ["Hi!", "zz"] 1 0 "Hi!"
    (by decide) (by decide)
  refine ⟨?_, ?_⟩
  · rw [h.1]
    decide
  · rw [h.2.1]
    decide

/-! ## `whiteSpace`: loop invariants -/

theorem groups_shift (k : Nat) (l : List Char) :
    ((spaceRunsFrom (k + 4) l).map (fun r => r / 4)).sum =
      ((spaceRunsFrom k l).map (fun r => r / 4)).sum + 1 := by
  induction l generalizing k with
  | nil =>
    by_cases hk : k = 0
    · subst hk
      simp [spaceRunsFrom]
    · simp [spaceRunsFrom, hk]
  | cons c cs ih =>
    by_cases hc : c = ' '
    · have e := ih (k + 1)
      have e4 : k + 1 + 4 = k + 4 + 1 := by omega
      rw [e4] at e
      simp [spaceRunsFrom, hc, e]
    · by_cases hk : k = 0
      · subst hk
        simp [spaceRunsFrom, hc]
        omega
      · simp [spaceRunsFrom, hc, hk]
        omega

theorem groups_of_small (k : Nat) (hk : k < 4) (c : Char) (cs : List Char) (hc : c ≠ ' ') :
    ((spaceRunsFrom k (c :: cs)).map (fun r => r / 4)).sum =
      ((spaceRunsFrom 0 cs).map (fun r => r / 4)).sum := by
  by_cases h0 : k = 0
  · simp [spaceRunsFrom, hc, h0]
  · have : k / 4 = 0 := by omega
    simp [spaceRunsFrom, hc, h0, this]

/-- Invariant of the loop of `whiteSpace` from any state with `conse < 4`:
`tabs` gains the tab characters and the 4-space groups completed, and every
space goes either to `spaces` or to such a group. -/
theorem whiteSpace_foldl (l : List Char) (st : WsState) (h : st.conse < 4) :
    (l.foldl whiteSpaceStep st).tabs =
      st.tabs + l.count '\t' + ((spaceRunsFrom st.conse l).map (fun r => r / 4)).sum ∧
    (l.foldl whiteSpaceStep st).spaces
        + ((spaceRunsFrom st.conse l).map (fun r => r / 4)).sum =
      st.spaces + l.count ' ' := by
  induction l generalizing st with
  | nil =>
    by_cases hk : st.conse = 0
    · simp [spaceRunsFrom, hk]
    · have : st.conse / 4 = 0 := by omega
      simp [spaceRunsFrom, hk, this]
  | cons c cs ih =>
    rw [List.foldl_cons]
    by_cases hc : c = ' '
    · subst hc
      have htab : (' ' :: cs).count '\t' = cs.count '\t' := by
        rw [List.count_cons]
        simp
      have hsp : (' ' :: cs).count ' ' = cs.count ' ' + 1 := by
        rw [List.count_cons]
        simp
      have hruns : spaceRunsFrom st.conse (' ' :: cs) = spaceRunsFrom (st.conse + 1) cs := by
        simp [spaceRunsFrom]
      rw [htab, hsp, hruns]
      by_cases h4 : st.conse + 1 = 4
      · have hstep : whiteSpaceStep st ' ' =
            { spaces := st.spaces, tabs := st.tabs + 1, conse := 0 } := by
          simp [whiteSpaceStep, h4]
        have hg := groups_shift 0 cs
        rw [Nat.zero_add] at hg
        rw [hstep, h4, hg]
        obtain ⟨ht, hs⟩ := ih { spaces := st.spaces, tabs := st.tabs + 1, conse := 0 }
          (by simp only; omega)
        simp only at ht hs
        constructor
        · rw [ht]
          omega
        · omega
      · have hstep : whiteSpaceStep st ' ' =
            { spaces := st.spaces + 1, tabs := st.tabs, conse := st.conse + 1 } := by
          simp [whiteSpaceStep, h4]
        rw [hstep]
        obtain ⟨ht, hs⟩ := ih
          { spaces := st.spaces + 1, tabs := st.tabs, conse := st.conse + 1 }
          (by simp only; omega)
        simp only at ht hs
        constructor
        · rw [ht]
        · omega
    · have hsp : (c :: cs).count ' ' = cs.count ' ' := by
        rw [List.count_cons]
        simp [hc]
      have hstep : whiteSpaceStep st c =
          { spaces := st.spaces, tabs := if c = '\t' then st.tabs + 1 else st.tabs,
            conse := 0 } := by
        simp [whiteSpaceStep, hc]
      rw [hstep, hsp, groups_of_small st.conse h c cs hc]
      obtain ⟨ht, hs⟩ := ih
        { spaces := st.spaces, tabs := if c = '\t' then st.tabs + 1 else st.tabs,
          conse := 0 } (by simp only; omega)
      simp only at ht hs
      constructor
      · rw [ht, List.count_cons]
        by_cases htc : c = '\t'
        · simp [htc]
          omega
        · simp [htc]
      · exact hs

/-- Invariant of the loop of `whiteSpace` on `conse`: after the characters `l`
it is the length of the run of spaces ending `l`, modulo 4. -/
theorem whiteSpace_conse (l : List Char) :
    (l.foldl whiteSpaceStep { spaces := 0, tabs := 0, conse := 0 }).conse =
      (l.reverse.takeWhile (fun c => c == ' ')).length % 4 := by
  induction l using List.reverseRecOn with
  | nil => rfl
  | append_singleton l a ih =>
    rw [List.foldl_append, List.foldl_cons, List.foldl_nil, List.reverse_append,
      List.reverse_singleton, List.singleton_append]
    by_cases ha : a = ' '
    · subst ha
      rw [List.takeWhile_cons_of_pos (by simp), List.length_cons]
      by_cases h4 : (l.foldl whiteSpaceStep { spaces := 0, tabs := 0, conse := 0 }).conse
          + 1 = 4
      · simp only [whiteSpaceStep, if_true, h4]
        omega
      · simp only [whiteSpaceStep, if_true, h4, if_false]
        omega
    · rw [List.takeWhile_cons_of_neg (by simpa using ha)]
      simp [whiteSpaceStep, ha]

theorem spaceRunsFrom_sum (k : Nat) (l : List Char) :
    (spaceRunsFrom k l).sum = k + l.count ' ' := by
  induction l generalizing k with
  | nil =>
    by_cases hk : k = 0
    · simp [spaceRunsFrom, hk]
    · simp [spaceRunsFrom, hk]
  | cons c cs ih =>
    by_cases hc : c = ' '
    · subst hc
      simp [spaceRunsFrom, ih, List.count_cons]
      omega
    · by_cases hk : k = 0
      · simp [spaceRunsFrom, hc, hk, ih, List.count_cons]
      · simp [spaceRunsFrom, hc, hk, ih, List.count_cons]

theorem sum_div_mod (rs : List Nat) :
    (rs.map (fun r => r % 4)).sum + 4 * (rs.map (fun r => r / 4)).sum = rs.sum := by
  induction rs with
  | nil => rfl
  | cons r rs ih =>
    simp only [List.map_cons, List.sum_cons]
    have := Nat.mod_add_div r 4
    omega

theorem whiteSpaceTabs_eq (L : String) :
    whiteSpaceTabs L = L.data.count '\t' + fourGroups L := by
  have h := (whiteSpace_foldl L.data { spaces := 0, tabs := 0, conse := 0 }
    (by simp only; omega)).1
  simp only [Nat.zero_add] at h
  exact h

theorem whiteSpaceLoop_spaces_add (L : String) :
    (whiteSpaceLoop L).spaces + fourGroups L = L.data.count ' ' := by
  have h := (whiteSpace_foldl L.data { spaces := 0, tabs := 0, conse := 0 }
    (by simp only; omega)).2
  simp only [Nat.zero_add] at h
  exact h

theorem whiteSpaceLoop_conse (L : String) :
    (whiteSpaceLoop L).conse = trailingSpaces L % 4 :=
  whiteSpace_conse L.data

/-! ## Claims on the space and tab tally -/

/-- C12: the value `whiteSpace` writes after `Tabs: ` is the number of tab
characters of the line plus, summed over its maximal runs of consecutive
spaces, `floor (run length / 4)`. -/
theorem whiteSpace_tabs_spec (L : String) :
    whiteSpaceTabs L = L.data.count '\t' + ((spaceRuns L).map (fun r => r / 4)).sum ∧
    (whiteSpace L)[1]? =
      some ("Tabs: " ++ showInt (L.data.count '\t' + ((spaceRuns L).map (fun r => r / 4)).sum)) ∧
    spaceRuns "  a    b \t     " = [2, 4, 1, 5] ∧
    whiteSpace "  a    b \t     " = ["Spaces: 11", "Tabs: 3"] := by
  have key := whiteSpaceTabs_eq L
  unfold fourGroups at key
  refine ⟨key, ?_, by decide, by decide⟩
  simp [whiteSpace, key]

/-- C13: the value `whiteSpace` writes after `Spaces: ` is the number of
spaces of the line, minus its number of 4-space groups, plus the length of its
trailing run of spaces modulo 4; it is the count of the rule "4 spaces are 1
tab, the rest are spaces" plus three per group plus that trailing remainder,
so it exceeds that count on some lines, four spaces for one. -/
theorem whiteSpace_spaces_spec (L : String) :
    whiteSpaceSpaces L = L.data.count ' ' - fourGroups L + trailingSpaces L % 4 ∧
    fourGroups L ≤ L.data.count ' ' ∧
    (whiteSpace L)[0]? =
      some ("Spaces: " ++
        showInt (L.data.count ' ' - fourGroups L + trailingSpaces L % 4)) ∧
    whiteSpaceSpaces L = naiveSpaces L + 3 * fourGroups L + trailingSpaces L % 4 ∧
    naiveSpaces "    " = 0 ∧ whiteSpaceSpaces "    " = 3 ∧
    naiveSpaces "  " = 2 ∧ whiteSpaceSpaces "  " = 4 := by
  have hs := whiteSpaceLoop_spaces_add L
  have hc := whiteSpaceLoop_conse L
  have key : whiteSpaceSpaces L =
      L.data.count ' ' - fourGroups L + trailingSpaces L % 4 := by
    unfold whiteSpaceSpaces
    omega
  have hsum : naiveSpaces L + 4 * fourGroups L = L.data.count ' ' := by
    have h1 := sum_div_mod (spaceRuns L)
    have h2 := spaceRunsFrom_sum 0 L.data
    unfold naiveSpaces fourGroups
    unfold spaceRuns at h1 ⊢
    omega
  refine ⟨key, by omega, ?_, by omega, by decide, by decide, by decide, by decide⟩
  simp [whiteSpace, key]

/-- C14: in `whiteSpace` the counter `conse` is at most 3 after any number of
characters of the line has been processed; when the loop exits it is the
length of the trailing run of spaces modulo 4, so the leftover that
`spaces += conse` adds is non-zero, and then between 1 and 3, exactly when
that length is not a multiple of 4. -/
theorem whiteSpace_conse_spec (L : String) (n : Nat) :
    ((L.data.take n).foldl whiteSpaceStep { spaces := 0, tabs := 0, conse := 0 }).conse ≤ 3 ∧
    (whiteSpaceLoop L).conse = trailingSpaces L % 4 ∧
    ((whiteSpaceLoop L).conse ≠ 0 ↔ ¬ 4 ∣ trailingSpaces L) ∧
    ((whiteSpaceLoop L).conse ≠ 0 →
      1 ≤ (whiteSpaceLoop L).conse ∧ (whiteSpaceLoop L).conse ≤ 3) ∧
    whiteSpaceSpaces L = (whiteSpaceLoop L).spaces + (whiteSpaceLoop L).conse := by
  have hc := whiteSpaceLoop_conse L
  have hn := whiteSpace_conse (L.data.take n)
  refine ⟨by omega, hc, ?_, ?_, rfl⟩
  · rw [hc, Nat.dvd_iff_mod_eq_zero]
  · intro h
    omega

/-! ## Uppercasing and the scans: auxiliary facts -/

theorem char_eq_of_toNat_eq (c d : Char) (h : c.toNat = d.toNat) : c = d := by
  rw [← Char.ofNat_toNat c, ← Char.ofNat_toNat d, h]

theorem char_eq_iff_toNat (c d : Char) : c = d ↔ c.toNat = d.toNat :=
  ⟨fun h => by rw [h], char_eq_of_toNat_eq c d⟩

theorem toupper_toNat (c : Char) :
    (toupper c).toNat = if 97 ≤ c.toNat ∧ c.toNat ≤ 122 then c.toNat - 32 else c.toNat := by
  by_cases h : 97 ≤ c.toNat ∧ c.toNat ≤ 122
  · rw [if_pos h, toupper_toNat_of_lower c h]
  · rw [if_neg h, toupper_of_not_lower c h]

theorem toupper_eq_space_iff (c : Char) : toupper c = ' ' ↔ c = ' ' := by
  have e : (' ' : Char).toNat = 32 := rfl
  rw [char_eq_iff_toNat, char_eq_iff_toNat c, toupper_toNat, e]
  split <;> omega

theorem toupper_eq_tab_iff (c : Char) : toupper c = '\t' ↔ c = '\t' := by
  have e : ('\t' : Char).toNat = 9 := rfl
  rw [char_eq_iff_toNat, char_eq_iff_toNat c, toupper_toNat, e]
  split <;> omega

theorem whiteSpaceStep_toupper (st : WsState) (c : Char) :
    whiteSpaceStep st (toupper c) = whiteSpaceStep st c := by
  unfold whiteSpaceStep
  simp only [toupper_eq_space_iff, toupper_eq_tab_iff]

theorem isLetter_toupper (c : Char) : isLetter (toupper c) = isLetter c := by
  unfold isLetter
  rw [Bool.eq_iff_iff, toupper_toNat]
  split
  · simp
    omega
  · simp

theorem isSpl_toupper (c : Char) : isSpl (toupper c) = isSpl c := by
  rw [isSpl_eq, isSpl_eq, isLetter_toupper]
  congr 1
  rw [Bool.eq_iff_iff]
  simp [toupper_eq_space_iff]

theorem isVowel_iff_toNat (c : Char) :
    isVowel c = true ↔
      c.toNat = 97 ∨ c.toNat = 101 ∨ c.toNat = 105 ∨ c.toNat = 111 ∨ c.toNat = 117 ∨
      c.toNat = 65 ∨ c.toNat = 69 ∨ c.toNat = 73 ∨ c.toNat = 79 ∨ c.toNat = 85 := by
  simp only [isVowel, Bool.or_eq_true, beq_iff_eq, char_eq_iff_toNat c, or_assoc]
  exact Iff.rfl

theorem isVowel_toupper (c : Char) : isVowel (toupper c) = isVowel c := by
  rw [Bool.eq_iff_iff, isVowel_iff_toNat, isVowel_iff_toNat, toupper_toNat]
  split <;> omega

theorem isLetter_of_isVowel (c : Char) (h : isVowel c = true) : isLetter c = true := by
  rw [isVowel_iff_toNat] at h
  unfold isLetter
  simp
  omega

theorem foldl_whiteSpaceStep_toupper (l : List Char) (st : WsState) :
    (l.map toupper).foldl whiteSpaceStep st = l.foldl whiteSpaceStep st := by
  rw [List.foldl_map]
  congr 1
  funext a c
  exact whiteSpaceStep_toupper a c

theorem filter_isVowel_toupper (l : List Char) :
    (l.map toupper).filter isVowel = (l.filter isVowel).map toupper := by
  induction l with
  | nil => rfl
  | cons c cs ih =>
    by_cases h : isVowel c = true
    · simp [List.filter_cons, isVowel_toupper, h, ih]
    · simp [List.filter_cons, isVowel_toupper, h, ih]

theorem countP_partition (l : List Char) :
    l.countP isSpl + l.countP isLetter + l.count ' ' = l.length ∧
    l.countP isVowel ≤ l.countP isLetter := by
  induction l with
  | nil => simp
  | cons c cs ih =>
    obtain ⟨h1, h2⟩ := ih
    simp only [List.countP_cons, List.count_cons, List.length_cons]
    by_cases hs : c = ' '
    · subst hs
      have e1 : isSpl ' ' = false := by decide
      have e2 : isLetter ' ' = false := by decide
      have e3 : isVowel ' ' = false := by decide
      simp [e1, e2, e3]
      omega
    · have hne : (c == ' ') = false := by simpa using hs
      by_cases hl : isLetter c = true
      · have e1 : isSpl c = false := by rw [isSpl_eq]; simp [hl]
        simp only [e1, hl, hne]
        by_cases hv : isVowel c = true
        · simp [hv]
          omega
        · simp [hv]
          omega
      · have e1 : isSpl c = true := by rw [isSpl_eq]; simp [hl, hs]
        have hv : ¬ isVowel c = true := fun hv => hl (isLetter_of_isVowel c hv)
        simp [e1, hl, hne, hv]
        omega

theorem vowelsLoop_eq (L : String) :
    vowelsLoop L =
      { out := (L.data.filter isVowel).map String.singleton,
        vowelCount := (L.data.filter isVowel).length } := by
  unfold vowelsLoop
  rw [vowelsLoop_foldl]
  simp

theorem toCaps_singleton (c : Char) :
    toCaps (String.singleton c) = String.singleton (toupper c) := rfl

/-! ## Claims relating the scans -/

/-- C15: uppercasing a line changes none of the counts the scans report: the
vowel count, the `Spaces` and `Tabs` values and the special-character count of
`toCaps L` are those of `L`, and the vowels written for `toCaps L` are the
uppercased vowels written for `L`, in the same order. -/
theorem scans_invariant_under_toCaps (L : String) :
    (vowelsLoop (toCaps L)).vowelCount = (vowelsLoop L).vowelCount ∧
    whiteSpaceSpaces (toCaps L) = whiteSpaceSpaces L ∧
    whiteSpaceTabs (toCaps L) = whiteSpaceTabs L ∧
    splCharCount (toCaps L) = splCharCount L ∧
    (vowelsLoop (toCaps L)).out = (vowelsLoop L).out.map toCaps ∧
    vowels (toCaps L) =
      (vowelsLoop L).out.map toCaps ++ ["cnt: " ++ showInt (vowelsLoop L).vowelCount] ∧
    whiteSpace (toCaps L) = whiteSpace L ∧
    splChar (toCaps L) = splChar L ∧
    vowels (toCaps "Queue") = ["U", "E", "U", "E", "cnt: 4"] := by
  have hws : whiteSpaceLoop (toCaps L) = whiteSpaceLoop L := by
    unfold whiteSpaceLoop toCaps
    exact foldl_whiteSpaceStep_toupper L.data _
  have hsp : splCharCount (toCaps L) = splCharCount L := by
    unfold splCharCount toCaps
    rw [splCharCount_foldl, splCharCount_foldl, List.countP_map]
    congr 1
    exact List.countP_congr (fun a _ => by simp [isSpl_toupper])
  have hfil : (toCaps L).data.filter isVowel = (L.data.filter isVowel).map toupper :=
    filter_isVowel_toupper L.data
  have hcnt : (vowelsLoop (toCaps L)).vowelCount = (vowelsLoop L).vowelCount := by
    rw [vowelsLoop_eq, vowelsLoop_eq, hfil]
    simp
  have hout : (vowelsLoop (toCaps L)).out = (vowelsLoop L).out.map toCaps := by
    rw [vowelsLoop_eq, vowelsLoop_eq, hfil]
    simp only [List.map_map]
    exact List.map_congr_left (fun c _ => (toCaps_singleton c).symm)
  refine ⟨hcnt, ?_, ?_, hsp, hout, ?_, ?_, ?_, by decide⟩
  · unfold whiteSpaceSpaces
    rw [hws]
  · unfold whiteSpaceTabs
    rw [hws]
  · unfold vowels
    rw [hout, hcnt]
  · unfold whiteSpace whiteSpaceSpaces whiteSpaceTabs
    rw [hws]
  · unfold splChar
    rw [hsp]

/-- C16: the characters of a line split into special characters, ASCII
letters and spaces, so the count of `splChar` plus the number of letters plus
the number of spaces is the length of the line; and the vowel count of
`vowels` plus the count of `splChar` is at most the length minus the number of
spaces. -/
theorem special_letter_space_partition (L : String) :
    splCharCount L + L.data.countP isLetter + L.data.count ' ' = L.length ∧
    (vowelsLoop L).vowelCount + splCharCount L ≤ L.length - L.data.count ' ' ∧
    splCharCount "a b, C!" + ("a b, C!".data.countP isLetter) + "a b, C!".data.count ' '
      = 7 := by
  obtain ⟨h1, h2⟩ := countP_partition L.data
  have hsp : splCharCount L = L.data.countP isSpl := by
    unfold splCharCount
    rw [splCharCount_foldl, Nat.zero_add]
  have hv : (vowelsLoop L).vowelCount = L.data.countP isVowel := by
    rw [vowelsLoop_eq, List.countP_eq_length_filter]
  have hlen : L.length = L.data.length := rfl
  refine ⟨by omega, by omega, by decide⟩

end SideKick
